import Mathlib

/-!
Verification of the bayesdesign repository (src/bed/grid.py, src/bed/design.py).

The numeric arrays of the source are embedded over `ℚ` (exact arithmetic in
place of float64), flat row-major cell indices stand for multi-dimensional
grid cells, and `np.log2` is an abstract parameter `log2 : ℚ → ℚ` of every
definition that uses it: all structural properties proved here hold for every
choice of that function, in particular for the real base-2 logarithm.
Fallible code is embedded in `Except String`; numpy `where=`-guarded
operations become `if` guards.
-/

namespace BayesDesign

/-- Embedding of `np.allclose(x, y)` for scalars with numpy's default
tolerances `rtol=1e-5`, `atol=1e-8`: `|x - y| <= atol + rtol*|y|`. -/
def allcloseQ (x y : ℚ) : Bool :=
  decide (|x - y| ≤ 1 / 100000000 + |y| / 100000)

/-- Embedding of `Grid.sum` (grid.py:130-168) for an unconstrained grid whose
cells are flattened to indices `0..n-1`: plain sum of the values. -/
def gridSum (n : ℕ) (g : ℕ → ℚ) : ℚ :=
  ∑ p ∈ Finset.range n, g p

/-! ## Grid.subgrid (grid.py:207-216)

`Grid.subgrid(N)` partitions the flattened cell space `0..total-1` into
chunks via the throwaway constraint `lambda idx: (idx >= i*N) & (idx < (i+1)*N)`;
the boolean mask yielded with each subgrid is that constraint evaluated on
the full grid (`subgrid.constraint_eval`). -/

/-- The chunk-`i` constraint `(idx >= i*N) & (idx < (i+1)*N)` of
`Grid.subgrid` (grid.py:214). -/
def subgridMask (n i idx : ℕ) : Bool :=
  decide (i * n ≤ idx) && decide (idx < (i + 1) * n)

/-- Number of chunks `np.ceil(total_size / N)` of `Grid.subgrid`
(grid.py:212), as the exact natural-number ceiling. -/
def numSubgrids (total n : ℕ) : ℕ :=
  (total + n - 1) / n

/-- The list of boolean masks yielded by `Grid.subgrid(N)` (grid.py:213-216),
one per chunk, each tabulated over the flattened parent grid. -/
def subgridMasksList (total n : ℕ) : List (List Bool) :=
  (List.range (numSubgrids total n)).map
    (fun i => (List.range total).map (fun idx => subgridMask n i idx))

/-- Embedding of `Grid.subgrid(N)` (grid.py:207-216): raises
`ValueError("N must be an integer")` unless `N` is a positive integer, else
yields one (subgrid, mask) pair per chunk; the subgrid member is the parent
grid constrained by the mask, so the pairs are represented by their masks. -/
def subgrid (total : ℕ) (n : ℤ) : Except String (List (List Bool)) :=
  if n ≤ 0 then Except.error "N must be an integer"
  else Except.ok (subgridMasksList total n.toNat)

/-- The cell indices of chunk `i`, i.e. the cells selected by the chunk-`i`
mask; these are the positions written by `self.EIG[mask] = ...`
(design.py:131). -/
def chunkCells (total n i : ℕ) : List ℕ :=
  (List.range total).filter (fun idx => subgridMask n i idx)

/-- The chunk decomposition of the design grid used by
`ExperimentDesigner.calculateEIG` (design.py:82), as lists of flattened
design-cell indices. -/
def subgridChunks (total n : ℕ) : List (List ℕ) :=
  (List.range (numSubgrids total n)).map (chunkCells total n)

lemma subgridMask_true_iff {n i idx : ℕ} :
    subgridMask n i idx = true ↔ i * n ≤ idx ∧ idx < (i + 1) * n := by
  simp [subgridMask]

lemma subgridMask_eq_div {n i idx : ℕ} (h : subgridMask n i idx = true) :
    idx / n = i := by
  rcases subgridMask_true_iff.mp h with ⟨h1, h2⟩
  exact Nat.div_eq_of_lt_le h1 h2

lemma subgridMask_self {n idx : ℕ} (hn : 0 < n) :
    subgridMask n (idx / n) idx = true := by
  refine subgridMask_true_iff.mpr ⟨Nat.div_mul_le_self idx n, ?_⟩
  have := Nat.lt_div_mul_add (a := idx) hn
  calc idx < idx / n * n + n := this
    _ = (idx / n + 1) * n := by ring

lemma div_lt_numSubgrids {total n idx : ℕ} (hn : 0 < n) (h : idx < total) :
    idx / n < numSubgrids total n := by
  have h1 : idx / n ≤ (total - 1) / n :=
    Nat.div_le_div_right (by omega)
  have h2 : total + n - 1 = (total - 1) + n := by omega
  have h3 : numSubgrids total n = (total - 1) / n + 1 := by
    rw [numSubgrids, h2, Nat.add_div_right _ hn]
  omega

lemma mem_chunkCells_iff {total n i idx : ℕ} :
    idx ∈ chunkCells total n i ↔ idx < total ∧ subgridMask n i idx = true := by
  simp [chunkCells]

lemma getD_map_range {total idx : ℕ} (f : ℕ → Bool) :
    (((List.range total).map f).getD idx false) =
      (if idx < total then f idx else false) := by
  rcases lt_or_ge idx total with h | h
  · rw [List.getD_eq_getElem?_getD]
    rw [List.getElem?_eq_getElem (by simpa using h)]
    simp [h]
  · rw [List.getD_eq_getElem?_getD]
    rw [List.getElem?_eq_none (by simpa using h)]
    simp [Nat.not_lt.mpr h]

lemma subgridMasksList_disjoint {total n : ℕ} :
    List.Pairwise
      (fun m1 m2 => ∀ idx : ℕ, ¬(m1.getD idx false = true ∧ m2.getD idx false = true))
      (subgridMasksList total n) := by
  rw [subgridMasksList, List.pairwise_map]
  refine List.Pairwise.imp ?_ (List.pairwise_lt_range (n := numSubgrids total n))
  intro i j hij idx ⟨h1, h2⟩
  rw [getD_map_range] at h1 h2
  by_cases hidx : idx < total
  · rw [if_pos hidx] at h1 h2
    have hi := subgridMask_eq_div h1
    have hj := subgridMask_eq_div h2
    omega
  · rw [if_neg hidx] at h1
    exact absurd h1 (by simp)

lemma subgridMasksList_cover {total n : ℕ} (hn : 0 < n) :
    ∀ idx < total, ∃ m ∈ subgridMasksList total n, m.getD idx false = true := by
  intro idx hidx
  refine ⟨(List.range total).map (fun k => subgridMask n (idx / n) k), ?_, ?_⟩
  · rw [subgridMasksList]
    exact List.mem_map_of_mem _ (List.mem_range.mpr (div_lt_numSubgrids hn hidx))
  · rw [getD_map_range]
    simp [hidx, subgridMask_self hn]

/-- C5: for every grid (with `total` flattened cells) and every positive
integer `n`, `Grid.subgrid(n)` yields exactly `ceil(total/n)` (subgrid, mask)
pairs whose masks are pairwise disjoint and together cover every cell of the
parent grid; for `n ≤ 0` it raises `ValueError("N must be an integer")`. -/
theorem subgrid_yields_exact_partition (total : ℕ) (n : ℤ) :
    (n ≤ 0 → subgrid total n = Except.error "N must be an integer") ∧
    (0 < n →
      subgrid total n = Except.ok (subgridMasksList total n.toNat) ∧
      (subgridMasksList total n.toNat).length = numSubgrids total n.toNat ∧
      List.Pairwise
        (fun m1 m2 => ∀ idx : ℕ,
          ¬(m1.getD idx false = true ∧ m2.getD idx false = true))
        (subgridMasksList total n.toNat) ∧
      ∀ idx < total, ∃ m ∈ subgridMasksList total n.toNat,
        m.getD idx false = true) := by
  constructor
  · intro h
    simp [subgrid, h]
  · intro h
    have hn : ¬(n ≤ 0) := not_le.mpr h
    have hn0 : 0 < n.toNat := by omega
    refine ⟨by simp [subgrid, hn], ?_, subgridMasksList_disjoint,
      subgridMasksList_cover hn0⟩
    simp [subgridMasksList]

/-- Witness for C5 at a concrete input: a 5-cell grid split with `n = 2`
yields `ceil(5/2) = 3` masks, and `n = -1` is rejected. -/
theorem subgrid_yields_exact_partition_witness :
    subgrid 5 (-1) = Except.error "N must be an integer" ∧
    subgrid 5 2 = Except.ok (subgridMasksList 5 2) ∧
    (subgridMasksList 5 2).length = 3 := by
  have h1 := (subgrid_yields_exact_partition 5 (-1)).1 (by decide)
  have h2 := (subgrid_yields_exact_partition 5 2).2 (by decide)
  exact ⟨h1, h2.1, h2.2.1.trans (by decide)⟩

/-! ## GridStack (grid.py:280-310)

A member Grid is represented by its number of axes together with the two
ephemeral stacking fields `_stack_offset` and `_stack_pad` (grid.py:75-76). -/

/-- The stacking-relevant state of one Grid: `naxes = len(grid.axes)` plus
the ephemeral `_stack_offset` / `_stack_pad` fields. -/
structure GridState where
  naxes : ℕ
  stack_offset : ℕ
  stack_pad : ℕ
deriving DecidableEq, Repr

/-- Total number of combined dimensions
`sum([len(grid.axes) for grid in self.grids])` (grid.py:295). -/
def sumNaxes (gs : List GridState) : ℕ :=
  (gs.map (fun g => g.naxes)).sum

/-- The loop body of `GridStack.__enter__` (grid.py:296-304), which walks the
member list in reverse (`self.grids[::-1]`) carrying the running `offset` and
`pad`, asserting that each member is not already stacked. -/
def enterLoop : List GridState → ℕ → ℕ → Except String (List GridState)
  | [], _, _ => Except.ok []
  | g :: rest, offset, pad =>
    if g.stack_offset = 0 ∧ g.stack_pad = 0 then
      match enterLoop rest (offset - g.naxes) (pad + g.naxes) with
      | Except.ok gs =>
          Except.ok ({ g with stack_pad := pad, stack_offset := offset - g.naxes } :: gs)
      | Except.error e => Except.error e
    else Except.error "Is there a duplicated grid in the stack?"

/-- Embedding of `GridStack.__enter__` (grid.py:292-305): starts from
`offset = sum of all member axis counts`, `pad = 0`, and iterates the members
in reverse order; the resulting member list is returned in original order. -/
def gridStackEnter (grids : List GridState) : Except String (List GridState) :=
  (enterLoop grids.reverse (sumNaxes grids) 0).map List.reverse

/-- Embedding of `GridStack.__exit__` (grid.py:307-310): unconditionally
reset `_stack_offset` and `_stack_pad` to zero on every member. -/
def gridStackExit (grids : List GridState) : List GridState :=
  grids.map (fun g => { g with stack_offset := 0, stack_pad := 0 })

/-- The assignment `__enter__` produces, stated the way the spec describes
it: the member after `offset` preceding combined dimensions receives that
count as its `_stack_offset`, and the count of dimensions of the members
after it (plus `extraPad`, zero at the top call) as its `_stack_pad`. -/
def enterAssign (offset extraPad : ℕ) : List GridState → List GridState
  | [] => []
  | g :: rest =>
      { g with stack_offset := offset, stack_pad := sumNaxes rest + extraPad } ::
        enterAssign (offset + g.naxes) extraPad rest

/-- The functional content of the reverse loop when no assertion fires. -/
def loopAssign : List GridState → ℕ → ℕ → List GridState
  | [], _, _ => []
  | g :: rest, offset, pad =>
      { g with stack_pad := pad, stack_offset := offset - g.naxes } ::
        loopAssign rest (offset - g.naxes) (pad + g.naxes)

lemma enterLoop_ok {rl : List GridState} {offset pad : ℕ}
    (h : ∀ g ∈ rl, g.stack_offset = 0 ∧ g.stack_pad = 0) :
    enterLoop rl offset pad = Except.ok (loopAssign rl offset pad) := by
  induction rl generalizing offset pad with
  | nil => rfl
  | cons g rest ih =>
    have hg := h g (List.mem_cons_self g rest)
    have hrest : ∀ g' ∈ rest, g'.stack_offset = 0 ∧ g'.stack_pad = 0 :=
      fun g' hg' => h g' (List.mem_cons_of_mem _ hg')
    rw [enterLoop, if_pos hg, ih hrest]
    rfl

lemma enterLoop_error {rl : List GridState} {offset pad : ℕ}
    (h : ∃ g ∈ rl, ¬(g.stack_offset = 0 ∧ g.stack_pad = 0)) :
    enterLoop rl offset pad =
      Except.error "Is there a duplicated grid in the stack?" := by
  induction rl generalizing offset pad with
  | nil => simp at h
  | cons g rest ih =>
    by_cases hg : g.stack_offset = 0 ∧ g.stack_pad = 0
    · have hrest : ∃ g' ∈ rest, ¬(g'.stack_offset = 0 ∧ g'.stack_pad = 0) := by
        rcases h with ⟨g', hmem, hne⟩
        rcases List.mem_cons.mp hmem with rfl | hmem'
        · exact absurd hg hne
        · exact ⟨g', hmem', hne⟩
      rw [enterLoop, if_pos hg, ih hrest]
    · rw [enterLoop, if_neg hg]

lemma sumNaxes_reverse (gs : List GridState) : sumNaxes gs.reverse = sumNaxes gs := by
  simp [sumNaxes, List.sum_reverse]

lemma loopAssign_append (xs ys : List GridState) (offset pad : ℕ) :
    loopAssign (xs ++ ys) offset pad =
      loopAssign xs offset pad ++
        loopAssign ys (offset - sumNaxes xs) (pad + sumNaxes xs) := by
  induction xs generalizing offset pad with
  | nil => simp [sumNaxes, loopAssign]
  | cons x xs ih =>
    rw [List.cons_append, loopAssign, loopAssign, ih]
    have h1 : offset - x.naxes - sumNaxes xs = offset - sumNaxes (x :: xs) := by
      simp [sumNaxes]
      omega
    have h2 : pad + x.naxes + sumNaxes xs = pad + sumNaxes (x :: xs) := by
      simp [sumNaxes]
      omega
    rw [h1, h2]
    rfl

lemma loopAssign_reverse (gs : List GridState) (base extraPad : ℕ) :
    (loopAssign gs.reverse (base + sumNaxes gs) extraPad).reverse =
      enterAssign base extraPad gs := by
  induction gs generalizing base extraPad with
  | nil => rfl

  | cons g rest ih =>
    rw [List.reverse_cons, loopAssign_append]
    have hs : sumNaxes (g :: rest) = g.naxes + sumNaxes rest := by
      simp [sumNaxes]
    rw [sumNaxes_reverse]
    have h1 : base + sumNaxes (g :: rest) - sumNaxes rest = base + g.naxes := by
      omega
    rw [h1]
    have h2 : loopAssign [g] (base + g.naxes) (extraPad + sumNaxes rest) =
        [{ g with stack_pad := extraPad + sumNaxes rest, stack_offset := base }] := by
      rw [loopAssign, loopAssign]
      have : base + g.naxes - g.naxes = base := by omega
      rw [this]
    rw [h2, List.reverse_append]
    have h3 : base + sumNaxes (g :: rest) = (base + g.naxes) + sumNaxes rest := by
      omega
    rw [h3, ih]
    rw [enterAssign]
    simp [Nat.add_comm]

/-- C6: entering a `GridStack` scope from a clean state (all members
unstacked) succeeds and assigns each member's `_stack_offset` to the count of
preceding combined dimensions and `_stack_pad` to the count of trailing
dimensions; entering with any member already stacked fails with the fatal
assertion; and exiting — applied unconditionally to any member states —
resets `_stack_offset` and `_stack_pad` to zero on every member. -/
theorem gridStack_scope_invariant (grids : List GridState) :
    ((∀ g ∈ grids, g.stack_offset = 0 ∧ g.stack_pad = 0) →
      gridStackEnter grids = Except.ok (enterAssign 0 0 grids)) ∧
    ((∃ g ∈ grids, ¬(g.stack_offset = 0 ∧ g.stack_pad = 0)) →
      gridStackEnter grids =
        Except.error "Is there a duplicated grid in the stack?") ∧
    (∀ g ∈ gridStackExit grids, g.stack_offset = 0 ∧ g.stack_pad = 0) := by
  refine ⟨?_, ?_, ?_⟩
  · intro h
    have hrev : ∀ g ∈ grids.reverse, g.stack_offset = 0 ∧ g.stack_pad = 0 := by
      intro g hg
      exact h g (List.mem_reverse.mp hg)
    rw [gridStackEnter, enterLoop_ok hrev]
    have : sumNaxes grids = 0 + sumNaxes grids := by omega
    rw [Except.map, this, loopAssign_reverse]
  · intro h
    have hrev : ∃ g ∈ grids.reverse, ¬(g.stack_offset = 0 ∧ g.stack_pad = 0) := by
      rcases h with ⟨g, hg, hne⟩
      exact ⟨g, List.mem_reverse.mpr hg, hne⟩
    rw [gridStackEnter, enterLoop_error hrev]
    rfl
  · intro g hg
    rcases List.mem_map.mp hg with ⟨g', _, rfl⟩
    exact ⟨rfl, rfl⟩

/-- Witness for C6 at concrete inputs: stacking a clean 2-axis grid with a
clean 3-axis grid assigns offsets 0 and 2 and pads 3 and 0; stacking when the
first member is already stacked hits the assertion; exit resets both fields. -/
theorem gridStack_scope_invariant_witness :
    gridStackEnter [⟨2, 0, 0⟩, ⟨3, 0, 0⟩] =
      Except.ok [⟨2, 0, 3⟩, ⟨3, 2, 0⟩] ∧
    gridStackEnter [⟨2, 1, 0⟩, ⟨3, 0, 0⟩] =
      Except.error "Is there a duplicated grid in the stack?" ∧
    gridStackExit [⟨2, 1, 4⟩, ⟨3, 2, 0⟩] = [⟨2, 0, 0⟩, ⟨3, 0, 0⟩] := by
  have h1 := (gridStack_scope_invariant [⟨2, 0, 0⟩, ⟨3, 0, 0⟩]).1 (by decide)
  have h2 := (gridStack_scope_invariant [⟨2, 1, 0⟩, ⟨3, 0, 0⟩]).2.1
    ⟨⟨2, 1, 0⟩, by simp, by decide⟩
  exact ⟨h1.trans rfl, h2, rfl⟩

/-! ## PermutationInvariant (grid.py:219-247)

The constraint weights depend only on the integer index tuples (the rows of
`M = np.stack(np.meshgrid(*[indices]*nvars, indexing="ij"), axis=-1).reshape(-1, nvars)`),
so the `k` identical size-`m` axes enter the model through their index range
alone; the identical-axes check (grid.py:223-225) guards inputs outside the
claim. -/

/-- The loop body of the inner `nperm` function (grid.py:234-245): walk the
row carrying the current run length `nrun` and the running denominator
`denom`; return 0 at the first descent, else `nvars! / denom` at the end. -/
def npermGo (nvars : ℕ) : ℕ → List ℕ → ℕ → ℕ → ℚ
  | _, [], _, denom => (Nat.factorial nvars : ℚ) / (denom : ℚ)
  | prev, x :: xs, nrun, denom =>
    if x < prev then 0
    else if x = prev then npermGo nvars x xs (nrun + 1) (denom * (nrun + 1))
    else npermGo nvars x xs 1 denom

/-- Embedding of `nperm(row)` (grid.py:234-245) on a row of axis indices;
rows are nonempty since `PermutationInvariant` requires at least one axis. -/
def nperm (row : List ℕ) : ℚ :=
  match row with
  | [] => 0
  | x :: xs => npermGo (xs.length + 1) x xs 1 1

/-- Run lengths of maximal blocks of equal adjacent values, the quantity the
spec's multinomial weight `k!/∏(run-length!)` is stated in terms of
(helper for the row starting at `prev` with current run length `cur`). -/
def runLengthsGo : ℕ → List ℕ → ℕ → List ℕ
  | _, [], cur => [cur]
  | prev, x :: xs, cur =>
    if x = prev then runLengthsGo x xs (cur + 1) else cur :: runLengthsGo x xs 1

/-- Run lengths of maximal blocks of equal adjacent values in a row. -/
def runLengths : List ℕ → List ℕ
  | [] => []
  | x :: xs => runLengthsGo x xs 1

/-- The row-major enumeration of all index tuples of `k` size-`m` axes: the
rows of `M` (grid.py:229-231), first axis varying slowest
(`indexing="ij"` plus C-order reshape). -/
def gridTuples (m : ℕ) : ℕ → List (List ℕ)
  | 0 => [[]]
  | k + 1 =>
      ((List.range m).map (fun i => (gridTuples m k).map (fun t => i :: t))).flatten

/-- Embedding of `PermutationInvariant` on `k` identical size-`m` axes
(grid.py:219-247): the flattened (row-major) array of constraint weights
`[nperm(row) for row in M]`. -/
def PermutationInvariant (m k : ℕ) : List ℚ :=
  (gridTuples m k).map nperm

lemma npermGo_eq (n : ℕ) (rest : List ℕ) :
    ∀ prev nrun denom : ℕ,
      npermGo n prev rest nrun denom =
        if List.Chain' (· ≤ ·) (prev :: rest) then
          ((Nat.factorial n : ℚ) * (Nat.factorial nrun : ℚ)) /
            ((denom : ℚ) * (((runLengthsGo prev rest nrun).map Nat.factorial).prod : ℚ))
        else 0 := by
  induction rest with
  | nil =>
    intro prev nrun denom
    rw [npermGo, runLengthsGo]
    rw [if_pos (by simp)]
    simp only [List.map_cons, List.map_nil, List.prod_cons, List.prod_nil, mul_one]
    rw [mul_div_mul_right _ _ (by exact_mod_cast Nat.factorial_ne_zero nrun)]
  | cons x xs ih =>
    intro prev nrun denom
    rw [npermGo]
    by_cases hlt : x < prev
    · rw [if_pos hlt, if_neg]
      intro hchain
      exact absurd (List.chain'_cons.mp hchain).1 (not_le.mpr hlt)
    · rw [if_neg hlt]
      by_cases heq : x = prev
      · rw [if_pos heq, ih x (nrun + 1) (denom * (nrun + 1))]
        subst heq
        have hchain : List.Chain' (· ≤ ·) (x :: x :: xs) ↔
            List.Chain' (· ≤ ·) (x :: xs) := by
          rw [List.chain'_cons]
          simp
        rw [runLengthsGo, if_pos rfl]
        by_cases hc : List.Chain' (· ≤ ·) (x :: xs)
        · rw [if_pos hc, if_pos (hchain.mpr hc)]
          have h1 : (Nat.factorial (nrun + 1) : ℚ) =
              ((nrun : ℚ) + 1) * (Nat.factorial nrun : ℚ) := by
            rw [Nat.factorial_succ]
            push_cast
            ring
          rw [h1]
          have h2 : ((denom * (nrun + 1) : ℕ) : ℚ) = (denom : ℚ) * ((nrun : ℚ) + 1) := by
            push_cast
            ring
          rw [h2]
          rw [show (Nat.factorial n : ℚ) * (((nrun : ℚ) + 1) * (Nat.factorial nrun : ℚ)) =
            ((nrun : ℚ) + 1) * ((Nat.factorial n : ℚ) * (Nat.factorial nrun : ℚ)) by ring]
          rw [show (denom : ℚ) * ((nrun : ℚ) + 1) *
              (((runLengthsGo x xs (nrun + 1)).map Nat.factorial).prod : ℚ) =
            ((nrun : ℚ) + 1) * ((denom : ℚ) *
              (((runLengthsGo x xs (nrun + 1)).map Nat.factorial).prod : ℚ)) by ring]
          rw [mul_div_mul_left _ _ (by positivity)]
        · rw [if_neg hc, if_neg (fun h => hc (hchain.mp h))]
      · have hgt : prev < x := by omega
        rw [if_neg heq, ih x 1 denom]
        have hchain : List.Chain' (· ≤ ·) (prev :: x :: xs) ↔
            List.Chain' (· ≤ ·) (x :: xs) := by
          rw [List.chain'_cons]
          simp [le_of_lt hgt]
        rw [runLengthsGo, if_neg heq]
        by_cases hc : List.Chain' (· ≤ ·) (x :: xs)
        · rw [if_pos hc, if_pos (hchain.mpr hc)]
          simp only [List.map_cons, List.prod_cons, Nat.factorial_one, Nat.cast_mul]
          rw [show (denom : ℚ) * ((Nat.factorial nrun : ℚ) *
              (((runLengthsGo x xs 1).map Nat.factorial).prod : ℚ)) =
            (Nat.factorial nrun : ℚ) *
              ((denom : ℚ) * (((runLengthsGo x xs 1).map Nat.factorial).prod : ℚ)) by ring]
          rw [show (Nat.factorial n : ℚ) * (Nat.factorial nrun : ℚ) =
            (Nat.factorial nrun : ℚ) * ((Nat.factorial n : ℚ) * 1) by ring]
          rw [mul_div_mul_left _ _
            (by exact_mod_cast Nat.factorial_ne_zero nrun)]
          norm_num
        · rw [if_neg hc, if_neg (fun h => hc (hchain.mp h))]

lemma nperm_eq (row : List ℕ) (hrow : row ≠ []) :
    nperm row =
      if List.Chain' (· ≤ ·) row then
        (Nat.factorial row.length : ℚ) /
          (((runLengths row).map Nat.factorial).prod : ℚ)
      else 0 := by
  match row with
  | [] => exact absurd rfl hrow
  | x :: xs =>
    rw [nperm, npermGo_eq, runLengths]
    simp [Nat.factorial]

lemma gridTuples_mem_length {m k : ℕ} :
    ∀ row ∈ gridTuples m k, row.length = k := by
  induction k with
  | zero =>
    intro row hrow
    simp [gridTuples] at hrow
    simp [hrow]
  | succ k ih =>
    intro row hrow
    simp only [gridTuples, List.mem_flatten, List.mem_map] at hrow
    rcases hrow with ⟨l, ⟨i, _, rfl⟩, hrow⟩
    rcases List.mem_map.mp hrow with ⟨t, ht, rfl⟩
    simp [ih t ht]

/-- C8: `PermutationInvariant` on `k ≥ 1` identical sorted axes of size `m`
assigns, to each grid cell `row` (an index tuple enumerated by `gridTuples`),
a weight that appears in the `PermutationInvariant` array and equals the
multinomial weight `k!/∏(run-length!)` over runs of equal indices when the
tuple is non-decreasing, and 0 when it is not. -/
theorem PermutationInvariant_multinomial (m k : ℕ) (hk : 1 ≤ k) (row : List ℕ)
    (hrow : row ∈ gridTuples m k) :
    nperm row ∈ PermutationInvariant m k ∧
    nperm row =
      (if List.Chain' (· ≤ ·) row then
        (Nat.factorial k : ℚ) / (((runLengths row).map Nat.factorial).prod : ℚ)
      else 0) := by
  have hlen := gridTuples_mem_length row hrow
  have hne : row ≠ [] := by
    intro h
    subst h
    simp at hlen
    omega
  constructor
  · exact List.mem_map_of_mem nperm hrow
  · rw [nperm_eq row hne, hlen]

/-- Witness for C8 on 3 identical size-3 axes: the cell with index tuple
`[0, 0, 1]` gets weight `3!/(2!·1!) = 3`, and the non-sorted tuple `[1, 0, 0]`
gets weight 0. -/
theorem PermutationInvariant_multinomial_witness :
    nperm [0, 0, 1] = 3 ∧ nperm [1, 0, 0] = 0 ∧
    nperm [0, 0, 1] ∈ PermutationInvariant 3 3 := by
  have h1 := PermutationInvariant_multinomial 3 3 (by decide) [0, 0, 1] (by decide)
  have h2 := PermutationInvariant_multinomial 3 3 (by decide) [1, 0, 0] (by decide)
  refine ⟨?_, ?_, h1.1⟩
  · rw [h1.2, if_pos (by simp)]
    norm_num [runLengths, runLengthsGo, Nat.factorial]
  · rw [h2.2, if_neg ?_]
    simp [List.chain'_cons]

/-! ## ExperimentDesigner.__init__ memory sizing (design.py:33-48)

Grid sizes `nf = prod(features.shape)`, `nd = prod(designs.shape)`,
`npar = prod(parameters.shape)` are at least 1 for any constructed Grid. -/

/-- The designs-axis chunk size `int(frac * prod(designs.shape))` where
`frac = mem / (2 * (nf*nd*npar*8)/(1 << 20))` (design.py:41-44); `int()` on
the positive float is truncation, i.e. the floor. -/
def designChunkSize (nf nd npar : ℕ) (mem : ℚ) : ℕ :=
  (⌊mem / (2 * ((nf : ℚ) * (nd : ℚ) * (npar : ℚ) * 8) / (2 ^ 20)) * (nd : ℚ)⌋).toNat

/-- The designer sizing state produced by `ExperimentDesigner.__init__`. -/
structure DesignerSizing where
  design_subgrid : ℕ
  num_subgrids : ℕ
deriving DecidableEq, Repr

/-- Embedding of the memory-budget branch of `ExperimentDesigner.__init__`
(design.py:33-48). With `mem=None` the single chunk is the whole designs
grid; otherwise `mem <= 0` raises `ValueError("Memory limit must be
positive")` and a chunk size that truncates to zero raises
`ValueError("Memory limit too low", ...)`. The source computes
`num_subgrids` by float division before the zero-size check (giving `inf`
rather than an exception when the chunk size is zero), so checking first is
observationally equal; the model raises exactly when the source does. -/
def experimentDesignerInit (nf nd npar : ℕ) (mem : Option ℚ) :
    Except String DesignerSizing :=
  match mem with
  | none => Except.ok ⟨nd, 1⟩
  | some m =>
    if m ≤ 0 then Except.error "Memory limit must be positive"
    else
      if designChunkSize nf nd npar m = 0 then
        Except.error "Memory limit too low"
      else
        Except.ok ⟨designChunkSize nf nd npar m,
          (nd + designChunkSize nf nd npar m - 1) / designChunkSize nf nd npar m⟩

/-- C7: constructing an `ExperimentDesigner` with `mem ≤ 0`, or with a memory
budget so small that the computed designs-axis chunk size rounds to zero,
raises a configuration error and no designer is created; any other budget
succeeds. -/
theorem designer_init_mem_guard (nf nd npar : ℕ) (m : ℚ)
    (hf : 0 < nf) (hd : 0 < nd) (hp : 0 < npar) :
    (experimentDesignerInit nf nd npar (some m)).isOk = true ↔
      (0 < m ∧ designChunkSize nf nd npar m ≠ 0) := by
  rw [experimentDesignerInit]
  by_cases h1 : m ≤ 0
  · rw [if_pos h1]
    constructor
    · intro h
      simp [Except.isOk, Except.toBool] at h
    · rintro ⟨h, _⟩
      exact absurd h (not_lt.mpr h1)
  · rw [if_neg h1]
    by_cases h2 : designChunkSize nf nd npar m = 0
    · rw [if_pos h2]
      constructor
      · intro h
        simp [Except.isOk, Except.toBool] at h
      · rintro ⟨_, hne⟩
        exact absurd h2 hne
    · rw [if_neg h2]
      constructor
      · intro _
        exact ⟨lt_of_not_le h1, h2⟩
      · intro _
        rfl

/-- Witness for C7: with 1-cell grids, `mem = 1` MB gives chunk size
`65536 ≠ 0` and construction succeeds; `mem = -1` is rejected. -/
theorem designer_init_mem_guard_witness :
    (experimentDesignerInit 1 1 1 (some 1)).isOk = true ∧
    (experimentDesignerInit 1 1 1 (some (-1))).isOk = false := by
  constructor
  · refine (designer_init_mem_guard 1 1 1 1 (by norm_num) (by norm_num)
      (by norm_num)).mpr ⟨by norm_num, ?_⟩
    norm_num [designChunkSize]
  · have h := designer_init_mem_guard 1 1 1 (-1) (by norm_num) (by norm_num)
      (by norm_num)
    rcases hcase : (experimentDesignerInit 1 1 1 (some (-1))).isOk with _ | _
    · rfl
    · exfalso
      have := (h.mp hcase).1
      norm_num at this

/-! ## ExperimentDesigner stored state and the prior check
(design.py:76-81)

`calculateEIG` begins with `self.prior = prior` and only then validates
`np.allclose(self.parameters.sum(self.prior), 1)`; for an unconstrained
parameters grid that sum is the plain sum of the stored array. -/

/-- The designer attributes the spec calls previously-ready state:
the stored prior, `H0`, `IG` (flattened), `EIG`, and the ready flag
`_initialized`. -/
structure DesignerState where
  prior : List ℚ
  H0 : ℚ
  IG : List ℚ
  EIG : List ℚ
  initialized : Bool
deriving Repr

/-- Embedding of the entry of `ExperimentDesigner.calculateEIG`
(design.py:76-78): the prior is stored, then validated; the first component
is the raised error (if any) and the second the designer state at that
point. On `none` the remainder of the computation proceeds (modelled by the
pure pipeline below). -/
def calculateEIG_entry (st : DesignerState) (newPrior : List ℚ) :
    Option String × DesignerState :=
  let st1 := { st with prior := newPrior }
  if allcloseQ newPrior.sum 1 then (none, st1)
  else (some "Prior probabilities must sum to 1", st1)

/-- Counterexample to C2 as stated: calling `calculateEIG` on a ready
designer with the non-normalized prior `[2]` raises the error, but the
stored prior has already been overwritten (`self.prior = prior` at
design.py:76 precedes the check at design.py:77), so the previously-ready
stored prior `[1]` is not left untouched. -/
theorem calculateEIG_entry_prior_mutated_cex :
    (calculateEIG_entry ⟨[1], 0, [0], [0], true⟩ [2]).1.isSome = true ∧
    ¬((calculateEIG_entry ⟨[1], 0, [0], [0], true⟩ [2]).2.prior = [1]) := by
  have hfalse : allcloseQ (2 : ℚ) 1 = false := by
    norm_num [allcloseQ]
  constructor
  · simp [calculateEIG_entry, hfalse]
  · simp [calculateEIG_entry, hfalse]

/-- C2 amended: a prior whose sum differs from 1 beyond tolerance raises
`ValueError("Prior probabilities must sum to 1")` before mutating `H0`,
`IG`, `EIG`, or the ready flag — those are left untouched — but after the
stored prior attribute has already been overwritten with the rejected
prior. -/
theorem calculateEIG_entry_amended (st : DesignerState) (newPrior : List ℚ)
    (h : allcloseQ newPrior.sum 1 = false) :
    (calculateEIG_entry st newPrior).1 = some "Prior probabilities must sum to 1" ∧
    (calculateEIG_entry st newPrior).2.H0 = st.H0 ∧
    (calculateEIG_entry st newPrior).2.IG = st.IG ∧
    (calculateEIG_entry st newPrior).2.EIG = st.EIG ∧
    (calculateEIG_entry st newPrior).2.initialized = st.initialized ∧
    (calculateEIG_entry st newPrior).2.prior = newPrior := by
  simp [calculateEIG_entry, h]

/-- Witness for the amended C2 at a concrete ready designer and the
non-normalized prior `[2]`. -/
theorem calculateEIG_entry_amended_witness :
    (calculateEIG_entry ⟨[1], 0, [0], [0], true⟩ [2]).1 =
      some "Prior probabilities must sum to 1" ∧
    (calculateEIG_entry ⟨[1], 0, [0], [0], true⟩ [2]).2.initialized = true := by
  have h := calculateEIG_entry_amended ⟨[1], 0, [0], [0], true⟩ [2]
    (by norm_num [allcloseQ])
  exact ⟨h.1, h.2.2.2.2.1⟩

/-! ## ExperimentDesigner.get_posterior (design.py:209-234)

At a single observed (design, features) point the buffer holds
`unnorm_lfunc * prior` over the parameters grid (flattened to `0..P-1`),
`post_norm` is its sum over parameters (`keepdims` makes it a scalar that
broadcasts over every cell), the divide happens `where post_norm > 0`, and
the prior is added back `where post_norm == 0`. -/

/-- Embedding of the posterior computation of `get_posterior`
(design.py:225-234) for an evaluated single-point likelihood `lf` over the
parameters grid. -/
def get_posterior (P : ℕ) (lf prior : ℕ → ℚ) (p : ℕ) : ℚ :=
  let pn := gridSum P (fun q => lf q * prior q)
  let b1 := lf p * prior p
  let b2 := if pn > 0 then b1 / pn else b1
  if pn = 0 then b2 + prior p else b2

/-- C4: on a ready designer, `get_posterior` returns the likelihood-times-
prior normalized over parameters when the normalizer is positive, and the
prior unchanged (no update) when the normalizer is zero. The likelihood and
prior are probability weights, so the cells of `L*prior` are non-negative. -/
theorem get_posterior_normalizer_cases (P : ℕ) (lf prior : ℕ → ℚ)
    (hnn : ∀ p < P, 0 ≤ lf p * prior p) :
    (0 < gridSum P (fun q => lf q * prior q) →
      ∀ p, get_posterior P lf prior p =
        lf p * prior p / gridSum P (fun q => lf q * prior q)) ∧
    (gridSum P (fun q => lf q * prior q) = 0 →
      ∀ p < P, get_posterior P lf prior p = prior p) := by
  constructor
  · intro hpos p
    rw [get_posterior]
    simp only [if_pos hpos, if_neg (ne_of_gt hpos)]
  · intro hzero p hp
    have hcell : lf p * prior p = 0 := by
      have := (Finset.sum_eq_zero_iff_of_nonneg
        (fun q hq => hnn q (Finset.mem_range.mp hq))).mp hzero
      exact this p (Finset.mem_range.mpr hp)
    rw [get_posterior]
    simp [hzero, hcell]

/-- Witness for C4: with one parameter cell, likelihood 1 and prior 1 give
normalizer 1 and posterior 1; likelihood 0 and prior 5 give normalizer 0 and
the prior returned unchanged. -/
theorem get_posterior_normalizer_cases_witness :
    get_posterior 1 (fun _ => 1) (fun _ => 1) 0 = 1 ∧
    get_posterior 1 (fun _ => 0) (fun _ => 5) 0 = 5 := by
  constructor
  · have h := (get_posterior_normalizer_cases 1 (fun _ => 1) (fun _ => 1)
      (fun p _ => by norm_num)).1
    rw [h (by norm_num [gridSum]) 0]
    norm_num [gridSum]
  · have h := (get_posterior_normalizer_cases 1 (fun _ => 0) (fun _ => 5)
      (fun p _ => by norm_num)).2
    exact h (by norm_num [gridSum]) 0 (by norm_num)

/-! ## Readiness gates (design.py:141-144 and design.py:209-213) -/

/-- Embedding of the readiness gate of `get_posterior` (design.py:211-213):
before any successful EIG computation it prints "Not initialized" and
returns `None` — a normal return, never an exception — and otherwise
computes the posterior from the stored prior. -/
def get_posterior_method (st : DesignerState) (P : ℕ) (lf : ℕ → ℚ) :
    Except String (Option (ℕ → ℚ)) :=
  if st.initialized = false then Except.ok none
  else Except.ok (some (get_posterior P lf (fun p => st.prior.getD p 0)))

/-- Embedding of the readiness gate of `calculateMarginalEIG`
(design.py:143-144): before any successful EIG computation it raises
`RuntimeError`; the marginal-EIG computation that follows on a ready
designer is not needed for this property and is represented by its
successful completion. -/
def calculateMarginalEIG_ready (st : DesignerState) : Except String Unit :=
  if st.initialized = false then
    Except.error "Must call calculateEIG before calculateMarginalEIG"
  else Except.ok ()

/-- C10: calling `get_posterior` on a designer before any successful EIG
computation does not raise: it returns `None` (after printing a
not-initialized message), unlike `calculateMarginalEIG`, which raises the
not-ready error in the same situation. -/
theorem get_posterior_uninitialized_returns_none (st : DesignerState)
    (P : ℕ) (lf : ℕ → ℚ) (h : st.initialized = false) :
    get_posterior_method st P lf = Except.ok none ∧
    calculateMarginalEIG_ready st =
      Except.error "Must call calculateEIG before calculateMarginalEIG" := by
  simp [get_posterior_method, calculateMarginalEIG_ready, h]

/-- Witness for C10 on a concrete fresh (never-initialized) designer
state. -/
theorem get_posterior_uninitialized_returns_none_witness :
    get_posterior_method ⟨[1], 0, [], [], false⟩ 1 (fun _ => 1) =
      Except.ok none ∧
    calculateMarginalEIG_ready ⟨[1], 0, [], [], false⟩ =
      Except.error "Must call calculateEIG before calculateMarginalEIG" :=
  get_posterior_uninitialized_returns_none ⟨[1], 0, [], [], false⟩ 1
    (fun _ => 1) rfl

/-! ## The calculateEIG pipeline (design.py:51-134)

Inside the `GridStack(features, s, parameters)` scope every operation of the
per-chunk loop acts cellwise over (feature `f`, design `d`) pairs and sums
or normalizes only over the parameters axis (`p`) or the features axis, so
the buffers are embedded as functions of the flat cell indices. `np.log2`
is the abstract parameter `log2`. -/

/-- Embedding of `likelihood_func` (design.py:136-139): the unnormalized
likelihood divided by its sum over the features axis for each
(parameter, design) cell (`features.normalize`, in place in the source). -/
def likeNorm (F : ℕ) (lfunc : ℕ → ℕ → ℕ → ℚ) (p f d : ℕ) : ℚ :=
  lfunc p f d / gridSum F (fun f2 => lfunc p f2 d)

/-- Embedding of the prior entropy `H0` (design.py:79-81): `np.log2` is
evaluated `where prior > 0` into a zero-initialized output. -/
def H0calc (log2 : ℚ → ℚ) (P : ℕ) (prior : ℕ → ℚ) : ℚ :=
  -(gridSum P (fun p => prior p * (if prior p > 0 then log2 (prior p) else 0)))

/-- The buffer after `self._buffer = np.array(sub_likelihood);
self._buffer *= self.prior` (design.py:92-93), at one design cell: `like`
is the feature-normalized likelihood at that design. -/
def bufLP (like : ℕ → ℕ → ℚ) (prior : ℕ → ℚ) (p f : ℕ) : ℚ :=
  like p f * prior p

/-- The posterior normalizer `post_norm = parameters.sum(buffer, keepdims)`
(design.py:104) at one (feature, design) cell. -/
def post_norm (P : ℕ) (like : ℕ → ℕ → ℚ) (prior : ℕ → ℚ) (f : ℕ) : ℚ :=
  gridSum P (fun p => bufLP like prior p f)

/-- The marginal feature probability `marginal = parameters.sum(buffer)`
(design.py:97), the same sum as `post_norm` without kept dimensions. -/
def marginal (P : ℕ) (like : ℕ → ℕ → ℚ) (prior : ℕ → ℚ) (f : ℕ) : ℚ :=
  gridSum P (fun p => bufLP like prior p f)

/-- The buffer after the guarded division
`np.divide(buffer, post_norm, out=buffer, where=post_norm > 0)`
(design.py:105-107): untouched where the guard fails. -/
def bufPost (P : ℕ) (like : ℕ → ℕ → ℚ) (prior : ℕ → ℚ) (p f : ℕ) : ℚ :=
  if post_norm P like prior f > 0 then
    bufLP like prior p f / post_norm P like prior f
  else bufLP like prior p f

/-- The buffer after `np.log2(buffer, out=buffer, where=buffer > 0)`
(design.py:114): untouched where the guard fails. -/
def bufLog (log2 : ℚ → ℚ) (P : ℕ) (like : ℕ → ℕ → ℚ) (prior : ℕ → ℚ)
    (p f : ℕ) : ℚ :=
  if bufPost P like prior p f > 0 then log2 (bufPost P like prior p f)
  else bufPost P like prior p f

/-- The buffer after `buffer *= likelihood_func(s); buffer *= prior`
(design.py:115-116). -/
def bufIG (log2 : ℚ → ℚ) (P : ℕ) (like : ℕ → ℕ → ℚ) (prior : ℕ → ℚ)
    (p f : ℕ) : ℚ :=
  bufLog log2 P like prior p f * like p f * prior p

/-- The buffer after the second guarded division by `post_norm`
(design.py:117-119). -/
def bufIGdiv (log2 : ℚ → ℚ) (P : ℕ) (like : ℕ → ℕ → ℚ) (prior : ℕ → ℚ)
    (p f : ℕ) : ℚ :=
  if post_norm P like prior f > 0 then
    bufIG log2 P like prior p f / post_norm P like prior f
  else bufIG log2 P like prior p f

/-- The information gain `IG = H0 + parameters.sum(buffer)` followed by
`IG[post_norm == 0] = 0` (design.py:122-123) at one (feature, design)
cell. -/
def IGcell (log2 : ℚ → ℚ) (P : ℕ) (like : ℕ → ℕ → ℚ) (prior : ℕ → ℚ)
    (H0 : ℚ) (f : ℕ) : ℚ :=
  if post_norm P like prior f = 0 then 0
  else H0 + gridSum P (fun p => bufIGdiv log2 P like prior p f)

/-- The expected information gain written into one design cell:
`features.sum(marginal * IG)` (design.py:131). -/
def EIGcell (log2 : ℚ → ℚ) (P F : ℕ) (like : ℕ → ℕ → ℚ) (prior : ℕ → ℚ)
    (H0 : ℚ) : ℚ :=
  gridSum F (fun f => marginal P like prior f * IGcell log2 P like prior H0 f)

/-- The full per-design EIG value of `calculateEIG`: the pipeline applied to
the feature-normalized likelihood column of design `d` with the prior
entropy `H0` computed once per call. -/
def designEIG (log2 : ℚ → ℚ) (P F : ℕ) (lfunc : ℕ → ℕ → ℕ → ℚ)
    (prior : ℕ → ℚ) (d : ℕ) : ℚ :=
  EIGcell log2 P F (fun p f => likeNorm F lfunc p f d) prior
    (H0calc log2 P prior)

/-- C3: at every (feature, design) cell where `post_norm = 0`, the guarded
divisions leave the buffer untouched (no division by zero is performed) and
the masked assignment `IG[post_norm == 0] = 0` forces the information gain
of that cell to exactly 0. -/
theorem IG_zero_where_post_norm_zero (log2 : ℚ → ℚ) (P : ℕ)
    (like : ℕ → ℕ → ℚ) (prior : ℕ → ℚ) (H0 : ℚ) (f : ℕ)
    (h : post_norm P like prior f = 0) :
    IGcell log2 P like prior H0 f = 0 ∧
    (∀ p, bufPost P like prior p f = bufLP like prior p f) ∧
    (∀ p, bufIGdiv log2 P like prior p f = bufIG log2 P like prior p f) := by
  refine ⟨by simp [IGcell, h], fun p => ?_, fun p => ?_⟩
  · simp [bufPost, h]
  · simp [bufIGdiv, h]

/-- Witness for C3: two parameter cells, a point-mass prior on the first
parameter, and a deterministic likelihood that sends the first parameter to
feature 0; feature 1 then has `post_norm = 0` and information gain 0. -/
theorem IG_zero_where_post_norm_zero_witness :
    post_norm 2 (fun p f => if p = 0 then (if f = 0 then 1 else 0)
      else (if f = 1 then 1 else 0)) (fun p => if p = 0 then 1 else 0) 1 = 0 ∧
    IGcell (fun _ => 0) 2 (fun p f => if p = 0 then (if f = 0 then 1 else 0)
      else (if f = 1 then 1 else 0)) (fun p => if p = 0 then 1 else 0) 5 1 = 0 := by
  have h : post_norm 2 (fun p f => if p = 0 then (if f = 0 then 1 else 0)
      else (if f = 1 then 1 else 0)) (fun p => if p = 0 then 1 else 0) 1 = 0 := by
    norm_num [post_norm, bufLP, gridSum, Finset.sum_range_succ]
  exact ⟨h, (IG_zero_where_post_norm_zero (fun _ => 0) 2 _ _ 5 1 h).1⟩

/-! ## Chunked calculateEIG (design.py:82-134)

The design grid (flattened to `0..D-1`) is processed in the chunks produced
by `designs.subgrid(self.design_subgrid)`; each chunk asserts that its
normalized likelihood sums to 1 over features (design.py:88) and then writes
`EIG[mask] = features.sum(marginal * IG)` for its cells (design.py:131).
With `mem=None` the chunk size is the whole design grid (design.py:34). -/

/-- The per-chunk assertion
`np.allclose(self.features.sum(sub_likelihood), 1)` (design.py:88), checked
over every (design, parameter) cell of the chunk. -/
def likeAssert (P F : ℕ) (lfunc : ℕ → ℕ → ℕ → ℚ) (c : List ℕ) : Bool :=
  c.all (fun d => (List.range P).all (fun p =>
    allcloseQ (gridSum F (fun f => likeNorm F lfunc p f d)) 1))

/-- The masked write `self.EIG[mask] = ...` (design.py:131) for one chunk of
design-cell indices. -/
def scatterEIG (vals : ℕ → ℚ) (c : List ℕ) (arr : List ℚ) : List ℚ :=
  c.foldl (fun a d => a.set d (vals d)) arr

/-- The chunk loop of `calculateEIG` (design.py:82-131): each chunk first
runs the normalization assertion, then scatters its EIG values into the
array. -/
def eigLoop (P F : ℕ) (lfunc : ℕ → ℕ → ℕ → ℚ) (vals : ℕ → ℚ) :
    List (List ℕ) → List ℚ → Except String (List ℚ)
  | [], arr => Except.ok arr
  | c :: rest, arr =>
    if likeAssert P F lfunc c then
      eigLoop P F lfunc vals rest (scatterEIG vals c arr)
    else Except.error "likelihood is not normalized over features"

/-- Embedding of `ExperimentDesigner.calculateEIG` (design.py:51-134) on a
designer with chunk size `N`: validate the prior, then fill the
`designs`-shaped EIG array chunk by chunk. The source preallocates the array
with `np.nan` (design.py:49); `ℚ` has no NaN so the placeholder is 0 —
every cell is overwritten before the array is returned whenever the chunks
cover the grid. The source returns `designs.getmax(self.EIG)` and stores the
array in `self.EIG`; the model returns the array itself. -/
def calculateEIG (log2 : ℚ → ℚ) (P F D : ℕ) (lfunc : ℕ → ℕ → ℕ → ℚ)
    (prior : ℕ → ℚ) (N : ℕ) : Except String (List ℚ) :=
  if allcloseQ (gridSum P prior) 1 then
    eigLoop P F lfunc (designEIG log2 P F lfunc prior) (subgridChunks D N)
      (List.replicate D 0)
  else Except.error "Prior probabilities must sum to 1"

lemma getD_set (arr : List ℚ) (x d : ℕ) (v : ℚ) :
    (arr.set x v).getD d 0 = if x = d ∧ x < arr.length then v else arr.getD d 0 := by
  by_cases hxd : x = d
  · subst hxd
    by_cases hlt : x < arr.length
    · rw [List.getD_eq_getElem?_getD, List.getElem?_set_eq_of_lt _ hlt,
        if_pos ⟨rfl, hlt⟩]
      rfl
    · rw [if_neg (fun h => hlt h.2), List.getD_eq_getElem?_getD,
        List.getD_eq_getElem?_getD, List.getElem?_set_self']
      rw [List.getElem?_eq_none (by omega)]
      rfl
  · rw [List.getD_eq_getElem?_getD, List.getElem?_set_ne hxd,
      ← List.getD_eq_getElem?_getD, if_neg (fun h => hxd h.1)]

lemma scatterEIG_length (vals : ℕ → ℚ) (c : List ℕ) (arr : List ℚ) :
    (scatterEIG vals c arr).length = arr.length := by
  induction c generalizing arr with
  | nil => rfl
  | cons x xs ih =>
    have hstep : scatterEIG vals (x :: xs) arr =
        scatterEIG vals xs (arr.set x (vals x)) := rfl
    rw [hstep, ih, List.length_set]

lemma scatterEIG_getD (vals : ℕ → ℚ) (c : List ℕ) (arr : List ℚ) (d : ℕ) :
    (scatterEIG vals c arr).getD d 0 =
      if d ∈ c ∧ d < arr.length then vals d else arr.getD d 0 := by
  induction c generalizing arr with
  | nil => simp [scatterEIG]
  | cons x xs ih =>
    have hstep : scatterEIG vals (x :: xs) arr =
        scatterEIG vals xs (arr.set x (vals x)) := rfl
    rw [hstep, ih, List.length_set, getD_set]
    by_cases hlen : d < arr.length
    · by_cases hmem : d ∈ xs
      · rw [if_pos ⟨hmem, hlen⟩, if_pos ⟨List.mem_cons_of_mem x hmem, hlen⟩]
      · rw [if_neg (fun h => hmem h.1)]
        by_cases hxd : x = d
        · subst hxd
          rw [if_pos ⟨rfl, hlen⟩, if_pos ⟨List.mem_cons_self x xs, hlen⟩]
        · rw [if_neg (fun h => hxd h.1), if_neg ?_]
          rintro ⟨hmc, -⟩
          rcases List.mem_cons.mp hmc with rfl | h'
          · exact hxd rfl
          · exact hmem h'
    · rw [if_neg (fun h => hlen h.2),
        if_neg (fun (h : x = d ∧ x < arr.length) => hlen (h.1 ▸ h.2)),
        if_neg (fun h => hlen h.2)]

lemma eigLoop_ok (P F : ℕ) (lfunc : ℕ → ℕ → ℕ → ℚ) (vals : ℕ → ℚ)
    (chunks : List (List ℕ)) (arr : List ℚ)
    (h : ∀ c ∈ chunks, likeAssert P F lfunc c = true) :
    eigLoop P F lfunc vals chunks arr =
      Except.ok (chunks.foldl (fun a c => scatterEIG vals c a) arr) := by
  induction chunks generalizing arr with
  | nil => rfl
  | cons c rest ih =>
    rw [eigLoop, if_pos (h c (List.mem_cons_self c rest)), List.foldl_cons]
    exact ih _ (fun c' hc' => h c' (List.mem_cons_of_mem c hc'))

lemma foldl_scatter_length (vals : ℕ → ℚ) (chunks : List (List ℕ))
    (arr : List ℚ) :
    (chunks.foldl (fun a c => scatterEIG vals c a) arr).length = arr.length := by
  induction chunks generalizing arr with
  | nil => rfl
  | cons c rest ih =>
    rw [List.foldl_cons, ih, scatterEIG_length]

lemma foldl_scatter_getD (vals : ℕ → ℚ) (chunks : List (List ℕ))
    (arr : List ℚ) (d : ℕ) :
    (chunks.foldl (fun a c => scatterEIG vals c a) arr).getD d 0 =
      if (∃ c ∈ chunks, d ∈ c) ∧ d < arr.length then vals d
      else arr.getD d 0 := by
  induction chunks generalizing arr with
  | nil => simp
  | cons c rest ih =>
    rw [List.foldl_cons, ih, scatterEIG_length, scatterEIG_getD]
    by_cases hrest : ∃ c' ∈ rest, d ∈ c'
    · by_cases hlen : d < arr.length
      · rw [if_pos ⟨hrest, hlen⟩, if_pos ?_]
        rcases hrest with ⟨c', hc', hd⟩
        exact ⟨⟨c', List.mem_cons_of_mem c hc', hd⟩, hlen⟩
      · rw [if_neg (fun h => hlen h.2), if_neg (fun h => hlen h.2),
          if_neg (fun h => hlen h.2)]
    · rw [if_neg (fun h => hrest h.1)]
      by_cases hc : d ∈ c
      · by_cases hlen : d < arr.length
        · rw [if_pos ⟨hc, hlen⟩, if_pos ⟨⟨c, List.mem_cons_self c rest, hc⟩, hlen⟩]
        · rw [if_neg (fun h => hlen h.2), if_neg (fun h => hlen h.2)]
      · rw [if_neg (fun h => hc h.1), if_neg ?_]
        rintro ⟨⟨c', hc', hd⟩, _⟩
        rcases List.mem_cons.mp hc' with rfl | h'
        · exact hc hd
        · exact hrest ⟨c', h', hd⟩

lemma subgridChunks_cover {D N d : ℕ} (hN : 0 < N) (hd : d < D) :
    ∃ c ∈ subgridChunks D N, d ∈ c := by
  refine ⟨chunkCells D N (d / N), ?_, ?_⟩
  · exact List.mem_map_of_mem _ (List.mem_range.mpr (div_lt_numSubgrids hN hd))
  · exact mem_chunkCells_iff.mpr ⟨hd, subgridMask_self hN⟩

lemma subgridChunks_mem_lt {D N : ℕ} {c : List ℕ} {d : ℕ}
    (hc : c ∈ subgridChunks D N) (hd : d ∈ c) : d < D := by
  rcases List.mem_map.mp hc with ⟨i, _, rfl⟩
  exact (mem_chunkCells_iff.mp hd).1

lemma calculateEIG_eval (log2 : ℚ → ℚ) (P F D : ℕ) (lfunc : ℕ → ℕ → ℕ → ℚ)
    (prior : ℕ → ℚ) (N : ℕ) (hN : 0 < N)
    (hprior : allcloseQ (gridSum P prior) 1 = true)
    (hlike : ∀ d < D, ∀ p < P,
      allcloseQ (gridSum F (fun f => likeNorm F lfunc p f d)) 1 = true) :
    calculateEIG log2 P F D lfunc prior N =
      Except.ok ((List.range D).map (designEIG log2 P F lfunc prior)) := by
  have hassert : ∀ c ∈ subgridChunks D N, likeAssert P F lfunc c = true := by
    intro c hc
    rw [likeAssert, List.all_eq_true]
    intro d hd
    rw [List.all_eq_true]
    intro p hp
    exact hlike d (subgridChunks_mem_lt hc hd) p (List.mem_range.mp hp)
  rw [calculateEIG, if_pos hprior, eigLoop_ok _ _ _ _ _ _ hassert]
  congr 1
  set A := (subgridChunks D N).foldl
    (fun a c => scatterEIG (designEIG log2 P F lfunc prior) c a)
    (List.replicate D 0) with hA
  have hlen : A.length = D := by
    rw [hA, foldl_scatter_length, List.length_replicate]
  refine List.ext_get (by simp [hlen]) ?_
  intro i h1 h2
  have hiD : i < D := by
    rw [hlen] at h1
    exact h1
  have hgetD : A.getD i 0 = designEIG log2 P F lfunc prior i := by
    rw [hA, foldl_scatter_getD]
    rw [if_pos ⟨subgridChunks_cover hN hiD, by simpa using hiD⟩]
  have hget : A.getD i 0 = A.get ⟨i, h1⟩ := by
    rw [List.getD_eq_getElem?_getD, List.getElem?_eq_getElem h1]
    rfl
  rw [← hget, hgetD]
  simp [hiD]

/-- C1: for every valid normalized prior and likelihood function
(feature-normalization assertion satisfied on every design column), the EIG
array produced by `calculateEIG` with `mem=None` — a single design chunk of
size `D` — equals, cell for cell and in fact as a whole array, the EIG array
produced with any smaller valid chunk size `N ≥ 1`; both equal the map of
the per-design pipeline over the design grid. -/
theorem calculateEIG_mem_equiv (log2 : ℚ → ℚ) (P F D : ℕ)
    (lfunc : ℕ → ℕ → ℕ → ℚ) (prior : ℕ → ℚ) (N : ℕ)
    (hD : 0 < D) (hN : 0 < N)
    (hprior : allcloseQ (gridSum P prior) 1 = true)
    (hlike : ∀ d < D, ∀ p < P,
      allcloseQ (gridSum F (fun f => likeNorm F lfunc p f d)) 1 = true) :
    calculateEIG log2 P F D lfunc prior N =
      calculateEIG log2 P F D lfunc prior D ∧
    calculateEIG log2 P F D lfunc prior N =
      Except.ok ((List.range D).map (designEIG log2 P F lfunc prior)) := by
  have hN2 := calculateEIG_eval log2 P F D lfunc prior N hN hprior hlike
  have hD2 := calculateEIG_eval log2 P F D lfunc prior D hD hprior hlike
  exact ⟨hN2.trans hD2.symm, hN2⟩

/-- Witness for C1: one parameter cell, one feature cell, two designs, the
constant likelihood 1 and the unit prior; chunk size 1 (two chunks) agrees
with chunk size 2 (`mem=None`, one chunk). -/
theorem calculateEIG_mem_equiv_witness :
    calculateEIG (fun _ => 0) 1 1 2 (fun _ _ _ => 1) (fun _ => 1) 1 =
      calculateEIG (fun _ => 0) 1 1 2 (fun _ _ _ => 1) (fun _ => 1) 2 := by
  refine (calculateEIG_mem_equiv (fun _ => 0) 1 1 2 (fun _ _ _ => 1)
    (fun _ => 1) 1 (by norm_num) (by norm_num) ?_ ?_).1
  · norm_num [allcloseQ, gridSum]
  · intro d _ p _
    norm_num [allcloseQ, gridSum, likeNorm]

/-! ## Grid.normalize (grid.py:170-174)

`normalize` mutates its argument (`values /= norm`) and returns the very
same buffer. Object identity and mutation are made explicit with a heap:
addresses name array buffers, the operation takes an address and returns
the updated heap together with the address of the returned buffer. For an
unconstrained grid, `self.sum(values, keepdims=True)` is the plain sum of
the flattened buffer, broadcast as a scalar over the division. -/

/-- Embedding of `Grid.normalize(values)` (grid.py:170-174) over an explicit
heap: divide the buffer at `addr` elementwise by its sum, in place, and
return the address of that same buffer. -/
def normalize (heap : ℕ → List ℚ) (addr : ℕ) : (ℕ → List ℚ) × ℕ :=
  let values := heap addr
  let norm := values.sum
  (fun a => if a = addr then values.map (fun v => v / norm) else heap a, addr)

/-- C9: `Grid.normalize(values)` divides `values` in place by
`sum(values, keepdims=True)` and returns the very same buffer it was given —
the buffer at the input address now holds the normalized values, every other
buffer is untouched, and the returned reference is the input reference.
Stated for buffers with a nonzero sum, where the float division of the
source is total. -/
theorem normalize_in_place_same_buffer (heap : ℕ → List ℚ) (addr : ℕ)
    (hnz : (heap addr).sum ≠ 0) :
    (normalize heap addr).2 = addr ∧
    (normalize heap addr).1 addr =
      (heap addr).map (fun v => v / (heap addr).sum) ∧
    (∀ b, b ≠ addr → (normalize heap addr).1 b = heap b) := by
  refine ⟨rfl, by simp [normalize], fun b hb => ?_⟩
  simp [normalize, hb]

/-- Witness for C9: the buffer `[1, 3]` at address 0 is normalized in place
to `[1/4, 3/4]`, address 0 is returned, and the buffer at address 5 is
untouched. -/
theorem normalize_in_place_same_buffer_witness :
    (normalize (fun a => if a = 0 then [1, 3] else []) 0).2 = 0 ∧
    (normalize (fun a => if a = 0 then [1, 3] else []) 0).1 0 =
      [1 / 4, 3 / 4] ∧
    (normalize (fun a => if a = 0 then [1, 3] else []) 0).1 5 = [] := by
  have h := normalize_in_place_same_buffer (fun a => if a = 0 then [1, 3] else [])
    0 (by norm_num)
  refine ⟨h.1, ?_, ?_⟩
  · rw [h.2.1]
    norm_num
  · rw [h.2.2 5 (by norm_num)]
    norm_num

end BayesDesign
